import Mathlib

/-!
Shallow embedding of the spsadiff tool (src/main.rs): the record parser
for the two SPSA text formats, the positional diff engine with its
range-normalized change fraction, the magnitude ranking, and the colored
report renderer.  IEEE doubles are modelled by an extended-rational type
with a single NaN and two infinities; finite arithmetic is exact rational
arithmetic (rounding, overflow to infinity and signed zeros are not
modelled), while all special-value propagation rules follow IEEE 754.
-/

namespace Spsadiff

/-- Model of an f64 value: a single NaN, the two infinities, and exact
rational finite values. -/
inductive EFloat where
  | nan
  | inf
  | neginf
  | finite (q : ℚ)
  deriving DecidableEq, Repr

namespace EFloat

/-- IEEE subtraction on the model (finite arithmetic exact). -/
def sub : EFloat → EFloat → EFloat
  | nan, _ => nan
  | _, nan => nan
  | inf, inf => nan
  | inf, _ => inf
  | neginf, neginf => nan
  | neginf, _ => neginf
  | finite _, inf => neginf
  | finite _, neginf => inf
  | finite a, finite b => finite (a - b)

/-- IEEE division on the model.  Zero is unsigned here, and a zero divisor
behaves as positive zero (which is what the program produces: its only
zero divisor arises as the difference of two equal finite bounds). -/
def div : EFloat → EFloat → EFloat
  | nan, _ => nan
  | _, nan => nan
  | inf, inf => nan
  | inf, neginf => nan
  | neginf, inf => nan
  | neginf, neginf => nan
  | inf, finite b => if b < 0 then neginf else inf
  | neginf, finite b => if b < 0 then inf else neginf
  | finite _, inf => finite 0
  | finite _, neginf => finite 0
  | finite a, finite b =>
    if b = 0 then
      if a = 0 then nan else if a < 0 then neginf else inf
    else finite (a / b)

/-- Model of f64.abs (the sign bit is cleared, so NaN stays NaN and both
infinities map to positive infinity). -/
def abs : EFloat → EFloat
  | nan => nan
  | inf => inf
  | neginf => inf
  | finite q => finite |q|

/-- True exactly on finite values. -/
def isFinite : EFloat → Bool
  | finite _ => true
  | _ => false

/-- The Rust comparison value < 0.0 as a Bool (false on NaN). -/
def ltZero : EFloat → Bool
  | nan => false
  | inf => false
  | neginf => true
  | finite q => decide (q < 0)

/-- Three-way comparison of two rationals. -/
def qcmp (a b : ℚ) : Ordering :=
  if a < b then .lt else if b < a then .gt else .eq

/-- Model of f64.total_cmp restricted to this value model: the single NaN
takes the place of IEEE positive NaN, the largest value in the total
order.  (The program only ever applies total_cmp to parsed values and to
absolute values, whose NaNs have a cleared sign bit.) -/
def totalCmp : EFloat → EFloat → Ordering
  | nan, nan => .eq
  | nan, _ => .gt
  | _, nan => .lt
  | inf, inf => .eq
  | inf, _ => .gt
  | _, inf => .lt
  | neginf, neginf => .eq
  | _, neginf => .gt
  | neginf, _ => .lt
  | finite a, finite b => qcmp a b

/-- Model of the Rust cast expression x.log10() as usize, applied to the
result of abs: a saturating float-to-usize cast of the base-10 logarithm.
Negative logarithms (absolute value below one) and NaN cast to 0, infinity
saturates to usize::MAX; for finite arguments of absolute value at least
one the cast equals the floor of the logarithm. -/
def log10Usize : EFloat → Nat
  | nan => 0
  | inf => 18446744073709551615
  | neginf => 0
  | finite q => if q < 1 then 0 else Nat.log 10 ⌊q⌋.toNat

end EFloat

/-- Decimal digit string to the number it denotes. -/
def digitsToNat (ds : List Char) : Nat :=
  ds.foldl (fun n c => 10 * n + (c.toNat - 48)) 0

/-- Model of the optional exponent suffix of the Rust float grammar: the
empty string denotes exponent zero; otherwise the suffix must be e or E,
an optional sign, and a nonempty run of digits reaching the end. -/
def parseExpSuffix : List Char → Option ℤ
  | [] => some 0
  | c :: rest =>
    if c = 'e' ∨ c = 'E' then
      let sgnNeg : Bool := match rest with
        | '-' :: _ => true
        | _ => false
      let rest2 := match rest with
        | '+' :: r => r
        | '-' :: r => r
        | _ => rest
      let ds := rest2.takeWhile Char.isDigit
      let rem := rest2.dropWhile Char.isDigit
      if ds = [] ∨ rem ≠ [] then none
      else some (if sgnNeg then -(digitsToNat ds : ℤ) else (digitsToNat ds : ℤ))
    else none

/-- Model of Rust f64::from_str: an optional sign, then inf, infinity or
nan (case-insensitive) or a decimal number with optional fraction and
exponent.  Finite values are read exactly as rationals; rounding to the
nearest double is not modelled. -/
def parseF64 (s : String) : Option EFloat :=
  let cs := s.data
  let sgnNeg : Bool := match cs with
    | '-' :: _ => true
    | _ => false
  let cs2 := match cs with
    | '+' :: rest => rest
    | '-' :: rest => rest
    | _ => cs
  let lower := cs2.map Char.toLower
  if lower = "inf".data ∨ lower = "infinity".data then
    some (if sgnNeg then .neginf else .inf)
  else if lower = "nan".data then
    some .nan
  else
    let ipart := cs2.takeWhile Char.isDigit
    let cs3 := cs2.dropWhile Char.isDigit
    let fr : List Char × List Char := match cs3 with
      | '.' :: rest => (rest.takeWhile Char.isDigit, rest.dropWhile Char.isDigit)
      | _ => ([], cs3)
    if ipart = [] ∧ fr.1 = [] then none
    else match parseExpSuffix fr.2 with
      | none => none
      | some e =>
        let mag : ℚ := (digitsToNat ipart : ℚ) + (digitsToNat fr.1 : ℚ) / (10 : ℚ) ^ fr.1.length
        let sgned : ℚ := if sgnNeg then -mag else mag
        let v : ℚ := if 0 ≤ e then sgned * (10 : ℚ) ^ e.toNat else sgned / (10 : ℚ) ^ (-e).toNat
        some (.finite v)

/-- Prepend a character to the first piece of a split result. -/
def consHead (c : Char) : List (List Char) → List (List Char)
  | [] => [[c]]
  | h :: t => (c :: h) :: t

/-- Model of Rust str::split with the two-character separator comma-space:
leftmost non-overlapping occurrences separate the pieces, and the result
is never empty. -/
def splitCS : List Char → List (List Char)
  | [] => [[]]
  | ',' :: ' ' :: rest => [] :: splitCS rest
  | c :: rest => consHead c (splitCS rest)

/-- The text of a line up to (excluding) the first comma-space separator,
or the whole line when no separator occurs. -/
def takeUntilCS : List Char → List Char
  | [] => []
  | ',' :: ' ' :: _ => []
  | c :: rest => c :: takeUntilCS rest

/-- Split on every newline character (the pieces keep any carriage
returns). -/
def splitNL : List Char → List (List Char)
  | [] => [[]]
  | '\n' :: rest => [] :: splitNL rest
  | c :: rest => consHead c (splitNL rest)

/-- Drop one trailing carriage return, if present. -/
def stripCR (l : List Char) : List Char :=
  if l.getLast? = some '\r' then l.dropLast else l

/-- Model of Rust str::lines: pieces between newline terminators, each
newline-terminated piece stripped of one trailing carriage return; a final
unterminated piece is kept as is, and a final empty piece (from a trailing
newline) yields no line. -/
def rustLines (s : String) : List String :=
  let raw := splitNL s.data
  let body := (raw.dropLast.map stripCR).map fun l => (⟨l⟩ : String)
  match raw.getLast? with
  | none => body
  | some [] => body
  | some l => body ++ [(⟨l⟩ : String)]

/-- One named numeric tuning parameter, as in the source. -/
structure UciOption where
  name : String
  value : EFloat
  min : Option EFloat
  max : Option EFloat
  step : Option EFloat
  deriving DecidableEq, Repr

/-- The two line formats of parse_from_input. -/
inductive IOSort where
  | Input
  | Output
  deriving DecidableEq, Repr

/-- Errors of parse_from_input.  The first two carry the zero-based line
index and the raw line, matching the with_context annotations in the
source; invalidNumber carries nothing, modelling the bare ParseFloatError
propagated by the question-mark operator without added context. -/
inductive ParseError where
  | missingName (idx : Nat) (line : String)
  | missingValue (idx : Nat) (line : String)
  | invalidNumber
  deriving DecidableEq, Repr

/-- True for the error constructors that carry the line index and the raw
line text. -/
def ParseError.carriesLineInfo : ParseError → Bool
  | .missingName _ _ => true
  | .missingValue _ _ => true
  | .invalidNumber => false

/-- The argument of Iterator::nth used to pick the value field once the
name has been consumed (1 for the input format, 0 for the output
format). -/
def valIndex : IOSort → Nat
  | .Input => 1
  | .Output => 0

/-- One iteration of the parsing closure of parse_from_input: split the
line on comma-space, take the first piece as the name, pick the value
field by mode, then attempt the next three fields as min, max and step
(silently none when absent or unparsable), and finally parse the value
field as a number. -/
def parseLine (sort : IOSort) (i : Nat) (l : String) : Except ParseError UciOption :=
  match splitCS l.data with
  | [] => .error (.missingName i l)
  | name :: rest =>
    match rest[valIndex sort]? with
    | none => .error (.missingValue i l)
    | some val =>
      let minv := rest[valIndex sort + 1]?.bind fun s => parseF64 ⟨s⟩
      let maxv := rest[valIndex sort + 2]?.bind fun s => parseF64 ⟨s⟩
      let stepv := rest[valIndex sort + 3]?.bind fun s => parseF64 ⟨s⟩
      match parseF64 ⟨val⟩ with
      | none => .error .invalidNumber
      | some v => .ok { name := ⟨name⟩, value := v, min := minv, max := maxv, step := stepv }

/-- The enumerated line loop of parse_from_input, collecting per-line
results and stopping at the first error, as collect on Result does. -/
def parseLines (sort : IOSort) : Nat → List String → Except ParseError (List UciOption)
  | _, [] => .ok []
  | i, l :: rest =>
    match parseLine sort i l with
    | .error e => .error e
    | .ok r =>
      match parseLines sort (i + 1) rest with
      | .error e => .error e
      | .ok rs => .ok (r :: rs)

/-- Model of parse_from_input: one record per line of the text, in line
order, failing with the first failing line's error. -/
def parse_from_input (text : String) (sort : IOSort) : Except ParseError (List UciOption) :=
  parseLines sort 0 (rustLines text)

/-- The per-pair metric of main: the value difference divided by the
bounded range, with missing bounds replaced by the corresponding
infinity. -/
def changeFraction (b a : UciOption) : EFloat :=
  let range := (b.max.getD EFloat.inf).sub (b.min.getD EFloat.neginf)
  (a.value.sub b.value).div range

/-- The zip-and-score step of main: positional pairing (zip truncates to
the shorter sequence) followed by the change fraction. -/
def scorePairs (input output : List UciOption) : List ((UciOption × UciOption) × EFloat) :=
  (input.zip output).map fun p => (p, changeFraction p.1 p.2)

/-- The sort_by comparator of main, as a Boolean order usable by a stable
sort: x may precede y when total_cmp of the absolute fractions does not
place y strictly above x, giving a descending order by magnitude. -/
def sortLE (x y : (UciOption × UciOption) × EFloat) : Bool :=
  (EFloat.totalCmp y.2.abs x.2.abs).isLE

/-- The ranking step of main: a stable sort, descending by the total order
on absolute change fractions (Rust sort_by is a stable merge sort). -/
def sortPairs (pairs : List ((UciOption × UciOption) × EFloat)) :
    List ((UciOption × UciOption) × EFloat) :=
  pairs.mergeSort sortLE

def CONTROL_GREY : String := "\x1b[38;5;243m"

def CONTROL_GREEN : String := "\x1b[32m"

def CONTROL_RED : String := "\x1b[31m"

def CONTROL_RESET : String := "\x1b[0m"

/-- A run of dot padding characters. -/
def dots (n : Nat) : String := ⟨List.replicate n '.'⟩

/-- Stand-in for the Rust Display rendering of an f64.  No property in
this development depends on the digits of the rendered number, only on
the layout around it, so finite values are shown via the rational
printer. -/
def display : EFloat → String
  | .nan => "NaN"
  | .inf => "inf"
  | .neginf => "-inf"
  | .finite q => toString q

/-- The color chosen in main by the three-way total_cmp comparison of the
after value against the before value. -/
def controlFor (av bv : EFloat) : String :=
  match EFloat.totalCmp av bv with
  | .lt => CONTROL_RED
  | .eq => CONTROL_GREY
  | .gt => CONTROL_GREEN

/-- The dot padding between name and before value: 36 saturating-minus
the name length plus the log10 cast of the absolute before value plus one
for a negative before value. -/
def padCount (b : UciOption) : Nat :=
  36 - (b.name.length + EFloat.log10Usize b.value.abs + (if b.value.ltZero then 1 else 0))

/-- The trailing dot padding, against a budget of five. -/
def tailCount (a : UciOption) : Nat :=
  5 - (EFloat.log10Usize a.value.abs + (if a.value.ltZero then 1 else 0))

/-- One rendered report line of main, with the after value wrapped in the
chosen color code and an immediate reset. -/
def renderLine (b a : UciOption) : String :=
  b.name ++ " " ++ dots (padCount b) ++ " " ++ display b.value ++ " -> " ++
    controlFor a.value b.value ++ display a.value ++ CONTROL_RESET ++ " " ++ dots (tailCount a)

/-- The render loop of main: each pair first passes the assert_eq on the
two names (a failing assertion aborts the run, modelled as an error), then
produces its line. -/
def renderAll : List ((UciOption × UciOption) × EFloat) → Except String (List String)
  | [] => .ok []
  | (p, _) :: rest =>
    if p.1.name = p.2.name then
      match renderAll rest with
      | .error e => .error e
      | .ok ls => .ok (renderLine p.1 p.2 :: ls)
    else .error "assertion failed: before.name == after.name"

/-- The in-memory pipeline of main after parsing: pair and score, rank,
then render. -/
def runPairs (input output : List UciOption) : Except String (List String) :=
  renderAll (sortPairs (scorePairs input output))

/-- True on a successful result. -/
def exceptIsOk {ε α : Type} : Except ε α → Bool
  | .ok _ => true
  | .error _ => false

/-- True exactly on the missing-name error. -/
def ParseError.isMissingName : ParseError → Bool
  | .missingName _ _ => true
  | _ => false

/-- True when a parse result is anything other than a missing-name
error. -/
def resultNotMissingName : Except ParseError (List UciOption) → Bool
  | .error e => !e.isMissingName
  | .ok _ => true

/-- A line is well formed for a mode when its parsing closure succeeds
(success of parseLine does not depend on the line index). -/
def lineOk (sort : IOSort) (l : String) : Bool :=
  exceptIsOk (parseLine sort 0 l)

/-- The overall index, among the comma-space pieces of a line, of the
piece holding the numeric value: 2 in the input format, 1 in the output
format. -/
def fieldIndex : IOSort → Nat
  | .Input => 2
  | .Output => 1

/-- Count of decimal digits of the integer part of the magnitude of a
value (zero counts as one digit), as the specification words the padding
rule. -/
def digitCountIntMag : EFloat → Nat
  | .finite q => Nat.log 10 ⌊|q|⌋.toNat + 1
  | _ => 1

/-- The padding count exactly as the specification words it: 36 minus
name length plus digit-count of the integer magnitude plus one for a
negative value, clamped at zero. -/
def specPadCount (b : UciOption) : Nat :=
  36 - (b.name.length + digitCountIntMag b.value + (if b.value.ltZero then 1 else 0))

theorem consHead_ne_nil (c : Char) (ls : List (List Char)) : consHead c ls ≠ [] := by
  cases ls <;> simp [consHead]

theorem splitCS_ne_nil (l : List Char) : splitCS l ≠ [] := by
  induction l using splitCS.induct <;> simp [splitCS, consHead_ne_nil]

theorem consHead_head? (c : Char) (ls : List (List Char)) :
    (consHead c ls).head? = some (c :: ls.headD []) := by
  cases ls <;> simp [consHead]

theorem splitCS_head? (l : List Char) : (splitCS l).head? = some (takeUntilCS l) := by
  induction l using splitCS.induct with
  | case1 => simp [splitCS, takeUntilCS]
  | case2 rest ih => simp [splitCS, takeUntilCS]
  | case3 c rest h ih =>
    rcases hs : splitCS rest with _ | ⟨p, ps⟩
    · exact absurd hs (splitCS_ne_nil rest)
    · have hp : p = takeUntilCS rest := by rw [hs] at ih; simpa using ih
      rw [splitCS, takeUntilCS, hs, ← hp]
      · simp [consHead]
      · exact fun r hc hr => h r hc hr
      · exact fun r hc hr => h r hc hr

theorem isLE_lt : Ordering.lt.isLE = true := rfl

theorem isLE_eq : Ordering.eq.isLE = true := rfl

theorem isLE_gt : Ordering.gt.isLE = false := rfl

theorem qcmp_isLE_iff (a b : ℚ) : (EFloat.qcmp a b).isLE = true ↔ a ≤ b := by
  unfold EFloat.qcmp
  split_ifs with h1 h2
  · exact iff_of_true rfl (le_of_lt h1)
  · exact iff_of_false (by decide) (not_le.mpr h2)
  · exact iff_of_true rfl (le_of_not_lt h2)

theorem qcmp_eq_iff (a b : ℚ) : EFloat.qcmp a b = .eq ↔ a = b := by
  unfold EFloat.qcmp
  split_ifs with h1 h2
  · exact iff_of_false (by simp) (by intro h; exact absurd h (ne_of_lt h1))
  · exact iff_of_false (by simp) (by intro h; exact absurd h (ne_of_gt h2))
  · exact iff_of_true rfl (le_antisymm (le_of_not_lt h2) (le_of_not_lt h1))

theorem totalCmp_isLE_trans {a b c : EFloat}
    (h1 : (EFloat.totalCmp a b).isLE = true) (h2 : (EFloat.totalCmp b c).isLE = true) :
    (EFloat.totalCmp a c).isLE = true := by
  cases a <;> cases b <;> cases c <;>
      simp_all [EFloat.totalCmp, qcmp_isLE_iff, isLE_lt, isLE_eq, isLE_gt] <;>
    linarith

theorem totalCmp_isLE_total (a b : EFloat) :
    ((EFloat.totalCmp a b).isLE || (EFloat.totalCmp b a).isLE) = true := by
  cases a <;> cases b <;>
      simp [EFloat.totalCmp, qcmp_isLE_iff, isLE_lt, isLE_eq, isLE_gt] <;>
    exact le_total _ _

theorem totalCmp_eq_symm {a b : EFloat} (h : EFloat.totalCmp a b = .eq) :
    EFloat.totalCmp b a = .eq := by
  cases a <;> cases b <;> simp_all [EFloat.totalCmp, qcmp_eq_iff]

theorem totalCmp_abs_gt {x y : EFloat} (hx : x.abs.isFinite = false)
    (hy : y.abs.isFinite = true) : EFloat.totalCmp x.abs y.abs = .gt := by
  cases x <;> cases y <;> simp_all [EFloat.abs, EFloat.isFinite, EFloat.totalCmp]

theorem sortLE_trans : ∀ (x y z : (UciOption × UciOption) × EFloat),
    sortLE x y → sortLE y z → sortLE x z :=
  fun _ _ _ h1 h2 => totalCmp_isLE_trans h2 h1

theorem sortLE_total : ∀ (x y : (UciOption × UciOption) × EFloat),
    (sortLE x y || sortLE y x) = true :=
  fun x y => totalCmp_isLE_total y.2.abs x.2.abs

theorem renderAll_ok_names {ps : List ((UciOption × UciOption) × EFloat)} {ls : List String}
    (h : renderAll ps = .ok ls) : ∀ x ∈ ps, x.1.1.name = x.1.2.name := by
  induction ps generalizing ls with
  | nil => simp
  | cons hd tl ih =>
    intro x hx
    obtain ⟨p, f⟩ := hd
    rw [renderAll] at h
    split_ifs at h with hname
    · rcases hmatch : renderAll tl with e | ls2
      · rw [hmatch] at h
        cases h
      · rcases List.mem_cons.mp hx with rfl | hx2
        · exact hname
        · exact ih hmatch x hx2

theorem fieldIndex_eq (sort : IOSort) : fieldIndex sort = valIndex sort + 1 := by
  cases sort <;> rfl

theorem parseLine_ok_anatomy {sort : IOSort} {i : Nat} {l : String} {r : UciOption}
    (h : parseLine sort i l = .ok r) :
    ∃ name rest, splitCS l.data = name :: rest ∧
      (∃ v, rest[valIndex sort]? = some v ∧ parseF64 ⟨v⟩ = some r.value) ∧
      r.name = (⟨name⟩ : String) ∧
      r.min = rest[valIndex sort + 1]?.bind (fun s => parseF64 ⟨s⟩) ∧
      r.max = rest[valIndex sort + 2]?.bind (fun s => parseF64 ⟨s⟩) ∧
      r.step = rest[valIndex sort + 3]?.bind (fun s => parseF64 ⟨s⟩) := by
  rcases hs : splitCS l.data with _ | ⟨name, rest⟩
  · exact absurd hs (splitCS_ne_nil _)
  · simp only [parseLine, hs] at h
    rcases hv : rest[valIndex sort]? with _ | v
    · simp [hv] at h
    · simp only [hv] at h
      rcases hp : parseF64 ⟨v⟩ with _ | w
      · simp [hp] at h
      · simp only [hp, Except.ok.injEq] at h
        subst h
        exact ⟨name, rest, rfl, ⟨v, hv, hp⟩, rfl, rfl, rfl, rfl⟩

theorem parseLine_ok_value {sort : IOSort} {i : Nat} {l : String} {r : UciOption}
    (h : parseLine sort i l = .ok r) :
    ∃ s, (splitCS l.data)[fieldIndex sort]? = some s ∧ parseF64 ⟨s⟩ = some r.value := by
  obtain ⟨name, rest, hs, ⟨v, hv, hpv⟩, -, -, -, -⟩ := parseLine_ok_anatomy h
  refine ⟨v, ?_, hpv⟩
  rw [hs, fieldIndex_eq, List.getElem?_cons_succ]
  exact hv

theorem parseLine_missingValue {sort : IOSort} {i : Nat} {l : String}
    (h : (splitCS l.data)[fieldIndex sort]? = none) :
    parseLine sort i l = .error (.missingValue i l) := by
  rcases hs : splitCS l.data with _ | ⟨name, rest⟩
  · exact absurd hs (splitCS_ne_nil _)
  · rw [hs, fieldIndex_eq, List.getElem?_cons_succ] at h
    simp only [parseLine, hs, h]

theorem parseLine_invalidNumber {sort : IOSort} {i : Nat} {l : String} {s : List Char}
    (h1 : (splitCS l.data)[fieldIndex sort]? = some s) (h2 : parseF64 ⟨s⟩ = none) :
    parseLine sort i l = .error .invalidNumber := by
  rcases hs : splitCS l.data with _ | ⟨name, rest⟩
  · exact absurd hs (splitCS_ne_nil _)
  · rw [hs, fieldIndex_eq, List.getElem?_cons_succ] at h1
    simp only [parseLine, hs, h1, h2]

theorem parseLine_ok_idx {sort : IOSort} {i j : Nat} {l : String} {r : UciOption}
    (h : parseLine sort i l = .ok r) : parseLine sort j l = .ok r := by
  rcases hs : splitCS l.data with _ | ⟨name, rest⟩
  · exact absurd hs (splitCS_ne_nil _)
  · simp only [parseLine, hs] at h ⊢
    rcases hv : rest[valIndex sort]? with _ | v
    · simp [hv] at h
    · simp only [hv] at h ⊢
      rcases hp : parseF64 ⟨v⟩ with _ | w
      · simp [hp] at h
      · simpa [hp] using h

theorem parseLine_ok_name {sort : IOSort} {i : Nat} {l : String} {r : UciOption}
    (h : parseLine sort i l = .ok r) : r.name = (⟨takeUntilCS l.data⟩ : String) := by
  obtain ⟨name, rest, hs, -, hname, -, -, -⟩ := parseLine_ok_anatomy h
  have hh := splitCS_head? l.data
  rw [hs] at hh
  simp only [List.head?, Option.some.injEq] at hh
  rw [hname, hh]

theorem parseLine_ok_ne_empty {sort : IOSort} {i : Nat} {l : String} {r : UciOption}
    (hdata : l.data = []) (h : parseLine sort i l = .ok r) : False := by
  obtain ⟨cs⟩ := l
  simp only at hdata
  subst hdata
  cases sort <;> simp [parseLine, splitCS, valIndex] at h

theorem parseLine_not_missingName {sort : IOSort} {i : Nat} {l : String} {e : ParseError}
    (h : parseLine sort i l = .error e) : e.isMissingName = false := by
  rcases hs : splitCS l.data with _ | ⟨name, rest⟩
  · exact absurd hs (splitCS_ne_nil _)
  · simp only [parseLine, hs] at h
    rcases hv : rest[valIndex sort]? with _ | v
    · simp only [hv, Except.error.injEq] at h
      rw [← h]
      rfl
    · simp only [hv] at h
      rcases hp : parseF64 ⟨v⟩ with _ | w
      · simp only [hp, Except.error.injEq] at h
        rw [← h]
        rfl
      · simp [hp] at h

theorem parseLines_ok_of_all {sort : IOSort} :
    ∀ (ls : List String) (i : Nat), (∀ l ∈ ls, lineOk sort l = true) →
    ∃ rs, parseLines sort i ls = .ok rs ∧
      List.Forall₂ (fun l r => parseLine sort 0 l = .ok r) ls rs := by
  intro ls
  induction ls with
  | nil => exact fun i _ => ⟨[], rfl, List.Forall₂.nil⟩
  | cons l tl ih =>
    intro i hall
    have h0 : lineOk sort l = true := hall l (List.mem_cons_self l tl)
    rcases hres : parseLine sort 0 l with e | r
    · simp [lineOk, hres, exceptIsOk] at h0
    · obtain ⟨rs, hrs, hf⟩ := ih (i + 1) (fun l2 hl2 => hall l2 (List.mem_cons_of_mem _ hl2))
      refine ⟨r :: rs, ?_, List.Forall₂.cons hres hf⟩
      simp only [parseLines]
      rw [parseLine_ok_idx hres, hrs]

theorem parseLines_error_at {sort : IOSort} :
    ∀ (ls : List String) (i j : Nat) (l : String) (e : ParseError),
      ls[j]? = some l →
      (∀ k l2, k < j → ls[k]? = some l2 → lineOk sort l2 = true) →
      parseLine sort (i + j) l = .error e →
      parseLines sort i ls = .error e := by
  intro ls
  induction ls with
  | nil =>
    intro i j l e hj
    simp at hj
  | cons hd tl ih =>
    intro i j l e hj hok herr
    cases j with
    | zero =>
      simp only [List.getElem?_cons_zero, Option.some.injEq] at hj
      subst hj
      rw [Nat.add_zero] at herr
      simp only [parseLines]
      rw [herr]
    | succ j2 =>
      have h0 : lineOk sort hd = true := hok 0 hd (Nat.succ_pos _) (by simp)
      rcases hres : parseLine sort 0 hd with e2 | r
      · simp [lineOk, hres, exceptIsOk] at h0
      · simp only [parseLines]
        rw [parseLine_ok_idx hres]
        have hrec : parseLines sort (i + 1) tl = .error e := by
          apply ih (i + 1) j2 l e
          · simpa using hj
          · intro k l2 hk hkget
            exact hok (k + 1) l2 (Nat.succ_lt_succ hk) (by simpa using hkget)
          · rw [show i + 1 + j2 = i + (j2 + 1) by omega]
            exact herr
        rw [hrec]

theorem parseLines_not_missingName {sort : IOSort} :
    ∀ (ls : List String) (i : Nat) (e : ParseError),
      parseLines sort i ls = .error e → e.isMissingName = false := by
  intro ls
  induction ls with
  | nil =>
    intro i e h
    simp [parseLines] at h
  | cons hd tl ih =>
    intro i e h
    simp only [parseLines] at h
    rcases hres : parseLine sort i hd with e2 | r
    · rw [hres] at h
      injection h with h2
      subst h2
      exact parseLine_not_missingName hres
    · rw [hres] at h
      rcases hrest : parseLines sort (i + 1) tl with e3 | rs
      · rw [hrest] at h
        injection h with h2
        subst h2
        exact ih (i + 1) _ hrest
      · rw [hrest] at h
        cases h

/-- C1: for every positional before/after pair, the computed change fraction
equals the value difference divided by the difference of the before bounds
(an absent max acts as plus infinity, an absent min as minus infinity); in
particular a before record with neither bound and a finite value difference
scores exactly zero. -/
theorem spsadiff_C1 :
    (∀ (input output : List UciOption) (k : Nat) (bi ai : UciOption),
      input[k]? = some bi → output[k]? = some ai →
      (scorePairs input output)[k]? =
        some ((bi, ai),
          (ai.value.sub bi.value).div
            ((bi.max.getD EFloat.inf).sub (bi.min.getD EFloat.neginf)))) ∧
    (∀ b a : UciOption, b.min = none → b.max = none →
      (a.value.sub b.value).isFinite = true → changeFraction b a = .finite 0) := by
  constructor
  · intro input output k bi ai h1 h2
    have hz : (input.zip output)[k]? = some (bi, ai) :=
      List.getElem?_zip_eq_some.mpr ⟨h1, h2⟩
    rw [scorePairs, List.getElem?_map, hz]
    rfl
  · intro b a hmin hmax hfin
    have hcf : changeFraction b a =
        (a.value.sub b.value).div ((b.max.getD .inf).sub (b.min.getD .neginf)) := rfl
    rw [hcf, hmin, hmax]
    rcases hd : a.value.sub b.value with _ | _ | _ | q
    · rw [hd] at hfin; cases hfin
    · rw [hd] at hfin; cases hfin
    · rw [hd] at hfin; cases hfin
    · rfl

/-- Witness for C1: the six-to-five change of a boundless record scores as
the formula says, and evaluates to zero. -/
theorem spsadiff_C1_witness :
    (scorePairs [{ name := "A", value := .finite 6, min := none, max := none, step := none }]
        [{ name := "A", value := .finite 5, min := none, max := none, step := none }])[0]? =
      some ((({ name := "A", value := .finite 6, min := none, max := none, step := none } :
              UciOption),
             ({ name := "A", value := .finite 5, min := none, max := none, step := none } :
              UciOption)),
        ((EFloat.finite 5).sub (EFloat.finite 6)).div
          (((none : Option EFloat).getD EFloat.inf).sub
            ((none : Option EFloat).getD EFloat.neginf))) ∧
    changeFraction { name := "A", value := .finite 6, min := none, max := none, step := none }
        { name := "A", value := .finite 5, min := none, max := none, step := none } =
      .finite 0 :=
  ⟨spsadiff_C1.1 _ _ 0 _ _ rfl rfl, spsadiff_C1.2 _ _ rfl rfl rfl⟩

/-- C2 counterexample: with one before record and two after records the run
succeeds, silently truncating to the shorter sequence instead of raising a
pairing error as the claim requires. -/
theorem spsadiff_C2_counterexample :
    exceptIsOk (runPairs
      [{ name := "A", value := .finite 1, min := some (.finite 0), max := some (.finite 10),
         step := some (.finite 1) }]
      [{ name := "A", value := .finite 2, min := none, max := none, step := none },
       { name := "B", value := .finite 3, min := none, max := none, step := none }]) = true := by
  simp [runPairs, sortPairs, scorePairs, renderAll, exceptIsOk]

/-- C2 amended: a name mismatch at a common index does abort the run (the
render-time assertion fails), but sequences of unequal length are silently
truncated by zip to the shorter one, with no error for the dropped
records. -/
theorem spsadiff_C2_amended :
    ∀ (input output : List UciOption) (k : Nat) (bi ai : UciOption),
      input[k]? = some bi → output[k]? = some ai → bi.name ≠ ai.name →
      exceptIsOk (runPairs input output) = false := by
  intro input output k bi ai h1 h2 hne
  rcases hr : runPairs input output with e | ls
  · rfl
  · exfalso
    have hz : (input.zip output)[k]? = some (bi, ai) :=
      List.getElem?_zip_eq_some.mpr ⟨h1, h2⟩
    have hmem : (bi, ai) ∈ input.zip output := List.getElem?_mem hz
    have hmem2 : ((bi, ai), changeFraction bi ai) ∈ scorePairs input output :=
      List.mem_map_of_mem _ hmem
    have hmem3 : ((bi, ai), changeFraction bi ai) ∈ sortPairs (scorePairs input output) :=
      ((List.mergeSort_perm (scorePairs input output) sortLE).mem_iff).mpr hmem2
    exact hne (renderAll_ok_names hr _ hmem3)

/-- Witness for C2: the before sequence A, B against the after sequence
A, C fails. -/
theorem spsadiff_C2_amended_witness :
    exceptIsOk (runPairs
      [{ name := "A", value := .finite 1, min := none, max := none, step := none },
       { name := "B", value := .finite 1, min := none, max := none, step := none }]
      [{ name := "A", value := .finite 2, min := none, max := none, step := none },
       { name := "C", value := .finite 3, min := none, max := none, step := none }]) = false :=
  spsadiff_C2_amended _ _ 1 _ _ rfl rfl (by decide)

/-- C4 counterexample: a before line whose value field is not numeric fails
with the bare invalid-number error, which carries neither the line index nor
the raw line text, contradicting the claim that it is so annotated. -/
theorem spsadiff_C4_counterexample :
    parse_from_input "A, int, xyz" IOSort.Input = .error .invalidNumber ∧
    ParseError.carriesLineInfo .invalidNumber = false :=
  ⟨rfl, rfl⟩

/-- C4 amended: the value is the comma-space field at index 2 in the input
format and index 1 in the output format; a missing field fails the whole
parse with the missing-value error annotated with line index and raw line,
while an unparsable field fails it with the unannotated invalid-number
error; in each case the first failing line decides the error. -/
theorem spsadiff_C4_amended :
    (∀ (sort : IOSort) (i : Nat) (l : String) (r : UciOption),
      parseLine sort i l = .ok r →
      ∃ s, (splitCS l.data)[fieldIndex sort]? = some s ∧
        parseF64 (⟨s⟩ : String) = some r.value) ∧
    (∀ (sort : IOSort) (i : Nat) (l : String),
      (splitCS l.data)[fieldIndex sort]? = none →
      parseLine sort i l = .error (.missingValue i l)) ∧
    (∀ (sort : IOSort) (i : Nat) (l : String) (s : List Char),
      (splitCS l.data)[fieldIndex sort]? = some s → parseF64 (⟨s⟩ : String) = none →
      parseLine sort i l = .error .invalidNumber) ∧
    (∀ (text : String) (sort : IOSort) (j : Nat) (l : String) (e : ParseError),
      (rustLines text)[j]? = some l →
      (∀ k l2, k < j → (rustLines text)[k]? = some l2 → lineOk sort l2 = true) →
      parseLine sort j l = .error e →
      parse_from_input text sort = .error e) :=
  ⟨fun _ _ _ _ h => parseLine_ok_value h,
   fun _ _ _ h => parseLine_missingValue h,
   fun _ _ _ _ h1 h2 => parseLine_invalidNumber h1 h2,
   fun text sort j l e hj hok herr =>
     parseLines_error_at (rustLines text) 0 j l e hj hok (by simpa using herr)⟩

/-- Witness for C4: the value field of a three-field input line is the third
piece; a two-field input line is a missing value annotated with index and
line; a non-numeric value field is the bare invalid-number error; the first
failing line of a two-line text decides the whole parse. -/
theorem spsadiff_C4_amended_witness :
    ((parseLine IOSort.Input 0 "A, int, 5").map (fun r => some r.value) =
      .ok (parseF64 "5")) ∧
    (parseLine IOSort.Input 0 "A, int" = .error (.missingValue 0 "A, int")) ∧
    (parseLine IOSort.Input 0 "A, int, xyz" = .error .invalidNumber) ∧
    (parse_from_input "A, 1\nB" IOSort.Output = .error (.missingValue 1 "B")) := by
  refine ⟨?_, ?_, ?_, ?_⟩
  · rcases hres : parseLine IOSort.Input 0 "A, int, 5" with e | r
    · have hok : exceptIsOk (parseLine IOSort.Input 0 "A, int, 5") = true := by decide
      rw [hres] at hok
      cases hok
    · obtain ⟨s, hs, hv⟩ := spsadiff_C4_amended.1 IOSort.Input 0 "A, int, 5" r hres
      have hs5 : s = "5".data := by
        rw [show (splitCS "A, int, 5".data)[fieldIndex IOSort.Input]? = some "5".data from rfl]
          at hs
        exact (Option.some.injEq _ _).mp hs.symm
      subst hs5
      simp only [Except.map, hv]
  · exact spsadiff_C4_amended.2.1 IOSort.Input 0 "A, int" rfl
  · exact spsadiff_C4_amended.2.2.1 IOSort.Input 0 "A, int, xyz" "xyz".data rfl rfl
  · apply spsadiff_C4_amended.2.2.2 "A, 1\nB" IOSort.Output 1 "B" _ rfl _ rfl
    intro k l2 hk hget
    have hk0 : k = 0 := by omega
    subst hk0
    rw [show (rustLines "A, 1\nB")[0]? = some "A, 1" from rfl] at hget
    injection hget with hget2
    subst hget2
    decide

/-- C5 counterexample: an output-format line with three extra numeric fields
does populate min, max and step, contradicting the claim that the after
format never populates them. -/
theorem spsadiff_C5_counterexample :
    (parse_from_input "A, 5, 1.0, 2.0, 3.0" IOSort.Output).map
      (fun rs => rs.map fun r => (r.name, r.min.isSome, r.max.isSome, r.step.isSome)) =
    .ok [("A", true, true, true)] := rfl

/-- C5 amended: in both formats the three comma-space fields following the
value field are attempted, in order, as min, max and step, a field absent or
unparsable yielding none silently; after-format records therefore have them
empty only because the observed output grammar carries no fields past the
value. -/
theorem spsadiff_C5_amended :
    ∀ (sort : IOSort) (i : Nat) (l : String) (r : UciOption),
      parseLine sort i l = .ok r →
      r.min = ((splitCS l.data)[fieldIndex sort + 1]?).bind (fun s => parseF64 (⟨s⟩ : String)) ∧
      r.max = ((splitCS l.data)[fieldIndex sort + 2]?).bind (fun s => parseF64 (⟨s⟩ : String)) ∧
      r.step = ((splitCS l.data)[fieldIndex sort + 3]?).bind (fun s => parseF64 (⟨s⟩ : String)) := by
  intro sort i l r h
  obtain ⟨name, rest, hs, -, -, hmin, hmax, hstep⟩ := parseLine_ok_anatomy h
  have e1 : fieldIndex sort + 1 = (valIndex sort + 1) + 1 := by rw [fieldIndex_eq]
  have e2 : fieldIndex sort + 2 = (valIndex sort + 2) + 1 := by rw [fieldIndex_eq]
  have e3 : fieldIndex sort + 3 = (valIndex sort + 3) + 1 := by rw [fieldIndex_eq]
  refine ⟨?_, ?_, ?_⟩
  · rw [hs, e1, List.getElem?_cons_succ]; exact hmin
  · rw [hs, e2, List.getElem?_cons_succ]; exact hmax
  · rw [hs, e3, List.getElem?_cons_succ]; exact hstep

/-- Witness for C5: the extra fields of a five-field output line land in
min, max and step exactly as the fields after the value prescribe. -/
theorem spsadiff_C5_amended_witness :
    (parseLine IOSort.Output 0 "A, 5, 1.0, 2.0, 3.0").map (fun r => (r.min, r.max, r.step)) =
    .ok
      (((splitCS "A, 5, 1.0, 2.0, 3.0".data)[fieldIndex IOSort.Output + 1]?).bind
        (fun s => parseF64 (⟨s⟩ : String)),
       ((splitCS "A, 5, 1.0, 2.0, 3.0".data)[fieldIndex IOSort.Output + 2]?).bind
        (fun s => parseF64 (⟨s⟩ : String)),
       ((splitCS "A, 5, 1.0, 2.0, 3.0".data)[fieldIndex IOSort.Output + 3]?).bind
        (fun s => parseF64 (⟨s⟩ : String))) := by
  rcases hres : parseLine IOSort.Output 0 "A, 5, 1.0, 2.0, 3.0" with e | r
  · have hok : exceptIsOk (parseLine IOSort.Output 0 "A, 5, 1.0, 2.0, 3.0") = true := by decide
    rw [hres] at hok
    cases hok
  · obtain ⟨h1, h2, h3⟩ := spsadiff_C5_amended IOSort.Output 0 "A, 5, 1.0, 2.0, 3.0" r hres
    simp only [Except.map, h1, h2, h3]

/-- C10: the missing-name branch of parse_from_input is unreachable: any
line splits into at least one comma-space piece, so parsing never produces
the missing-name error, and an empty line instead fails at value extraction
with the missing-value error. -/
theorem spsadiff_C10 :
    (∀ (text : String) (sort : IOSort),
      resultNotMissingName (parse_from_input text sort) = true) ∧
    (∀ l : String, 0 < (splitCS l.data).length) ∧
    (∀ (sort : IOSort) (i : Nat), parseLine sort i "" = .error (.missingValue i "")) := by
  refine ⟨?_, ?_, ?_⟩
  · intro text sort
    rcases hres : parse_from_input text sort with e | rs
    · have := parseLines_not_missingName (rustLines text) 0 e hres
      simp [resultNotMissingName, this]
    · rfl
  · intro l
    exact List.length_pos.mpr (splitCS_ne_nil l.data)
  · intro sort i
    cases sort <;> rfl

/-- C3: the ranking is a permutation of the scored pairs, descending under
the total order on absolute change fractions, stable on ties (a pair of
equal-magnitude elements keeps its relative order), and on the magnitudes
one half, one fiftieth, one tenth it yields the order one half, one tenth,
one fiftieth. -/
theorem spsadiff_C3 :
    (∀ pairs : List ((UciOption × UciOption) × EFloat), List.Perm (sortPairs pairs) pairs) ∧
    (∀ pairs : List ((UciOption × UciOption) × EFloat),
      (sortPairs pairs).Pairwise
        (fun x y => (EFloat.totalCmp y.2.abs x.2.abs).isLE = true)) ∧
    (∀ (pairs : List ((UciOption × UciOption) × EFloat))
      (x y : (UciOption × UciOption) × EFloat),
      EFloat.totalCmp x.2.abs y.2.abs = .eq → List.Sublist [x, y] pairs →
      List.Sublist [x, y] (sortPairs pairs)) ∧
    (sortPairs
      [(({ name := "A", value := .finite 0, min := none, max := none, step := none },
         { name := "A", value := .finite 0, min := none, max := none, step := none }),
        .finite (1/2)),
       (({ name := "B", value := .finite 0, min := none, max := none, step := none },
         { name := "B", value := .finite 0, min := none, max := none, step := none }),
        .finite (1/50)),
       (({ name := "C", value := .finite 0, min := none, max := none, step := none },
         { name := "C", value := .finite 0, min := none, max := none, step := none }),
        .finite (1/10))] =
      [(({ name := "A", value := .finite 0, min := none, max := none, step := none },
         { name := "A", value := .finite 0, min := none, max := none, step := none }),
        .finite (1/2)),
       (({ name := "C", value := .finite 0, min := none, max := none, step := none },
         { name := "C", value := .finite 0, min := none, max := none, step := none }),
        .finite (1/10)),
       (({ name := "B", value := .finite 0, min := none, max := none, step := none },
         { name := "B", value := .finite 0, min := none, max := none, step := none }),
        .finite (1/50))]) := by
  refine ⟨?_, ?_, ?_, ?_⟩
  · exact fun pairs => List.mergeSort_perm pairs sortLE
  · exact fun pairs => List.sorted_mergeSort sortLE_trans sortLE_total pairs
  · intro pairs x y hxy hsub
    apply List.pair_sublist_mergeSort sortLE_trans sortLE_total _ hsub
    have hsymm := totalCmp_eq_symm hxy
    simp [sortLE, hsymm, isLE_eq]
  · have ha : |(1:ℚ)/2| = 1/2 := abs_of_pos (by norm_num)
    have hb : |(1:ℚ)/50| = 1/50 := abs_of_pos (by norm_num)
    have hc : |(1:ℚ)/10| = 1/10 := abs_of_pos (by norm_num)
    norm_num [sortPairs, List.mergeSort, List.splitInTwo, List.splitAt_eq, List.merge, sortLE,
      EFloat.totalCmp, EFloat.abs, EFloat.qcmp, isLE_lt, isLE_eq, isLE_gt, ha, hb, hc]

/-- Witness for C3: two pairs of equal zero magnitude stay in their original
order through the ranking. -/
theorem spsadiff_C3_witness :
    EFloat.totalCmp
      ((({ name := "A", value := .finite 1, min := none, max := none, step := none },
         { name := "A", value := .finite 1, min := none, max := none, step := none }),
        (EFloat.finite 0)) :
          (UciOption × UciOption) × EFloat).2.abs
      ((({ name := "B", value := .finite 2, min := none, max := none, step := none },
         { name := "B", value := .finite 2, min := none, max := none, step := none }),
        (EFloat.finite 0)) :
          (UciOption × UciOption) × EFloat).2.abs = .eq ∧
    List.Sublist
      [(({ name := "A", value := .finite 1, min := none, max := none, step := none },
         { name := "A", value := .finite 1, min := none, max := none, step := none }),
        (EFloat.finite 0)),
       (({ name := "B", value := .finite 2, min := none, max := none, step := none },
         { name := "B", value := .finite 2, min := none, max := none, step := none }),
        (EFloat.finite 0))]
      (sortPairs
        [(({ name := "A", value := .finite 1, min := none, max := none, step := none },
           { name := "A", value := .finite 1, min := none, max := none, step := none }),
          (EFloat.finite 0)),
         (({ name := "B", value := .finite 2, min := none, max := none, step := none },
           { name := "B", value := .finite 2, min := none, max := none, step := none }),
          (EFloat.finite 0))]) := by
  have heq : EFloat.totalCmp (EFloat.finite 0).abs (EFloat.finite 0).abs = .eq := by
    norm_num [EFloat.abs, EFloat.totalCmp, EFloat.qcmp]
  exact ⟨heq, spsadiff_C3.2.2.1 _ _ _ heq (List.Sublist.refl _)⟩

/-- C6: a before text all of whose lines parse yields exactly one record per
line (all lines being non-empty), in line order, each record named by the
text before the first comma-space of its line. -/
theorem spsadiff_C6 :
    ∀ text : String,
      (∀ l ∈ rustLines text, lineOk IOSort.Input l = true) →
      ((parse_from_input text IOSort.Input).map (fun rs => rs.length) =
        .ok (rustLines text).length) ∧
      (∀ l ∈ rustLines text, 0 < l.length) ∧
      (∀ k : Nat,
        (parse_from_input text IOSort.Input).map (fun rs => rs[k]?.map (fun r => r.name)) =
          .ok (((rustLines text)[k]?).map
            (fun l => (⟨takeUntilCS l.data⟩ : String)))) := by
  intro text hwf
  obtain ⟨rs, hrs, hf⟩ := parseLines_ok_of_all (rustLines text) 0 hwf
  have hrs2 : parse_from_input text IOSort.Input = .ok rs := hrs
  have hlen := hf.length_eq
  refine ⟨?_, ?_, ?_⟩
  · rw [hrs2]
    simp only [Except.map]
    rw [hlen]
  · intro l hl
    have h0 := hwf l hl
    rcases hres : parseLine IOSort.Input 0 l with e | r
    · simp [lineOk, hres, exceptIsOk] at h0
    · rcases hd : l.data with _ | ⟨c, cs⟩
      · exact absurd hres (fun h => parseLine_ok_ne_empty hd h)
      · obtain ⟨cs2⟩ := l
        simp only at hd
        subst hd
        simp [String.length]
  · intro k
    rw [hrs2]
    simp only [Except.map, Except.ok.injEq]
    rcases hk : rs[k]? with _ | r
    · have hge : rs.length ≤ k := by
        by_contra hcon
        push_neg at hcon
        rw [List.getElem?_eq_getElem hcon] at hk
        cases hk
      have hge2 : (rustLines text).length ≤ k := hlen ▸ hge
      rw [List.getElem?_eq_none hge2]
      rfl
    · have hklt : k < rs.length := by
        by_contra hcon
        push_neg at hcon
        rw [List.getElem?_eq_none hcon] at hk
        cases hk
      have hkl : k < (rustLines text).length := by omega
      have hpl := hf.get hkl hklt
      have hget : rs.get ⟨k, hklt⟩ = r := by
        have hsome : rs[k]? = some (rs.get ⟨k, hklt⟩) := by
          rw [List.getElem?_eq_getElem hklt]
          rfl
        rw [hk] at hsome
        injection hsome with h2
        exact h2.symm
      rw [List.getElem?_eq_getElem hkl]
      simp only [Option.map_some']
      have hname := parseLine_ok_name hpl
      rw [hget] at hname
      rw [hname]
      rw [List.get_eq_getElem]

/-- Witness for C6 on a two-line before text. -/
theorem spsadiff_C6_witness :
    ((parse_from_input "A, int, 5\nB, int, 7" IOSort.Input).map (fun rs => rs.length) =
      .ok (rustLines "A, int, 5\nB, int, 7").length) ∧
    ((parse_from_input "A, int, 5\nB, int, 7" IOSort.Input).map
        (fun rs => rs[0]?.map (fun r => r.name)) =
      .ok (((rustLines "A, int, 5\nB, int, 7")[0]?).map
        (fun l => (⟨takeUntilCS l.data⟩ : String)))) :=
  ⟨(spsadiff_C6 _ (by decide)).1, (spsadiff_C6 _ (by decide)).2.2 0⟩

/-- C7: when the before record carries equal finite bounds the range is
zero, so the change fraction is plus or minus infinity by the sign of the
value difference, or NaN when the difference is also zero; and the ranking
places every pair of non-finite absolute fraction before every pair of
finite absolute fraction. -/
theorem spsadiff_C7 :
    (∀ (b a : UciOption) (m qb qa : ℚ),
      b.min = some (.finite m) → b.max = some (.finite m) →
      b.value = .finite qb → a.value = .finite qa →
      changeFraction b a =
        (if qb < qa then .inf else if qa < qb then .neginf else .nan)) ∧
    (∀ (pairs : List ((UciOption × UciOption) × EFloat)) (i j : Nat)
      (x y : (UciOption × UciOption) × EFloat),
      (sortPairs pairs)[i]? = some x → (sortPairs pairs)[j]? = some y →
      x.2.abs.isFinite = false → y.2.abs.isFinite = true → i < j) := by
  constructor
  · intro b a m qb qa hmin hmax hb ha
    have hcf : changeFraction b a =
        (a.value.sub b.value).div ((b.max.getD .inf).sub (b.min.getD .neginf)) := rfl
    rw [hcf, hmin, hmax, hb, ha]
    simp only [Option.getD_some]
    have hsub : (EFloat.finite m).sub (.finite m) = .finite 0 := by
      simp only [EFloat.sub, sub_self]
    have hdiff : (EFloat.finite qa).sub (.finite qb) = .finite (qa - qb) := rfl
    rw [hsub, hdiff]
    have hdiv : (EFloat.finite (qa - qb)).div (.finite 0) =
        (if qa - qb = 0 then .nan else if qa - qb < 0 then .neginf else .inf) := by
      simp [EFloat.div]
    rw [hdiv]
    rcases lt_trichotomy qb qa with h | h | h
    · rw [if_neg (show ¬qa - qb = 0 from fun hc => by linarith),
        if_neg (show ¬qa - qb < 0 by linarith), if_pos h]
    · rw [if_pos (show qa - qb = 0 by linarith), if_neg (show ¬qb < qa by linarith),
        if_neg (show ¬qa < qb by linarith)]
    · rw [if_neg (show ¬qa - qb = 0 from fun hc => by linarith),
        if_pos (show qa - qb < 0 by linarith), if_neg (show ¬qb < qa by linarith), if_pos h]
  · intro pairs i j x y hxi hyj hfx hfy
    obtain ⟨hi, hgi⟩ := List.getElem?_eq_some.mp hxi
    obtain ⟨hj, hgj⟩ := List.getElem?_eq_some.mp hyj
    by_contra hcon
    push_neg at hcon
    rcases Nat.lt_or_ge j i with hlt | hge
    · have hp : (sortPairs pairs).Pairwise (fun u v => sortLE u v = true) :=
        List.sorted_mergeSort sortLE_trans sortLE_total pairs
      have hrel := (List.pairwise_iff_getElem.mp hp) j i hj hi hlt
      rw [hgi, hgj] at hrel
      have hgt := totalCmp_abs_gt hfx hfy
      simp only [sortLE] at hrel
      rw [hgt] at hrel
      exact absurd hrel (by decide)
    · have heq : i = j := by omega
      subst heq
      rw [hgi] at hgj
      subst hgj
      rw [hfx] at hfy
      cases hfy

/-- Witness for C7: equal bounds three and three on a six-to-five change
give negative infinity, and in a two-pair list with one infinite and one
finite magnitude the infinite one is ranked first. -/
theorem spsadiff_C7_witness :
    changeFraction
        { name := "A", value := .finite 6, min := some (.finite 3), max := some (.finite 3),
          step := none }
        { name := "A", value := .finite 5, min := none, max := none, step := none } =
      (if (6:ℚ) < 5 then .inf else if (5:ℚ) < 6 then .neginf else .nan) ∧
    (0:Nat) < 1 := by
  constructor
  · exact spsadiff_C7.1 _ _ 3 6 5 rfl rfl rfl rfl
  · apply spsadiff_C7.2
      [(({ name := "A", value := .finite 0, min := none, max := none, step := none },
         { name := "A", value := .finite 0, min := none, max := none, step := none }),
        .finite (1/2)),
       (({ name := "B", value := .finite 0, min := none, max := none, step := none },
         { name := "B", value := .finite 0, min := none, max := none, step := none }),
        .inf)] 0 1
      (({ name := "B", value := .finite 0, min := none, max := none, step := none },
        { name := "B", value := .finite 0, min := none, max := none, step := none }),
       .inf)
      (({ name := "A", value := .finite 0, min := none, max := none, step := none },
        { name := "A", value := .finite 0, min := none, max := none, step := none }),
       .finite (1/2))
    · simp [sortPairs, List.mergeSort, List.splitInTwo, List.splitAt_eq, List.merge, sortLE,
        EFloat.totalCmp, EFloat.abs, EFloat.qcmp, isLE_lt, isLE_eq, isLE_gt]
    · simp [sortPairs, List.mergeSort, List.splitInTwo, List.splitAt_eq, List.merge, sortLE,
        EFloat.totalCmp, EFloat.abs, EFloat.qcmp, isLE_lt, isLE_eq, isLE_gt]
    · rfl
    · rfl

/-- C8 counterexample: for the repository's RFP_MARGIN record with before
value 73 the program pads with 25 dots, while the claimed formula (36 minus
name length plus digit-count plus sign) yields 24. -/
theorem spsadiff_C8_counterexample :
    padCount
        { name := "RFP_MARGIN", value := .finite 73, min := some (.finite 40),
          max := some (.finite 200), step := some (.finite 10) } = 25 ∧
    specPadCount
        { name := "RFP_MARGIN", value := .finite 73, min := some (.finite 40),
          max := some (.finite 200), step := some (.finite 10) } = 24 := by
  have habs : |(73:ℚ)| = 73 := abs_of_pos (by norm_num)
  have hflr : (⌊(73:ℚ)⌋ : ℤ) = 73 := by norm_num
  have hlog : Nat.log 10 73 = 1 := Nat.log_eq_of_pow_le_of_lt_pow (by norm_num) (by norm_num)
  have hname : ("RFP_MARGIN" : String).length = 10 := rfl
  have htn : (73:ℤ).toNat = 73 := rfl
  constructor <;>
    norm_num [padCount, specPadCount, EFloat.abs, EFloat.log10Usize, EFloat.ltZero,
      digitCountIntMag, habs, hflr, htn, hlog, hname]

/-- C8 amended: the dot padding is 36 saturating-minus the sum of the name
length, the digit-count of the integer magnitude minus one (or zero when
the absolute value is below one, where the float log10 casts to zero), and
one for a negative value. -/
theorem spsadiff_C8_amended :
    ∀ (b : UciOption) (q : ℚ), b.value = .finite q →
      padCount b =
        36 - (b.name.length + (if 1 ≤ |q| then digitCountIntMag b.value - 1 else 0) +
          (if q < 0 then 1 else 0)) := by
  intro b q hv
  have hpc : padCount b =
      36 - (b.name.length + EFloat.log10Usize b.value.abs +
        (if b.value.ltZero then 1 else 0)) := rfl
  rw [hpc, hv]
  simp only [EFloat.abs, EFloat.log10Usize, EFloat.ltZero, digitCountIntMag,
    decide_eq_true_eq]
  rcases le_or_lt 1 |q| with h1 | h1
  · rw [if_neg (not_lt.mpr h1), if_pos h1, Nat.add_sub_cancel]
  · rw [if_pos h1, if_neg (not_le.mpr h1)]

/-- Witness for C8 at a negative two-digit value. -/
theorem spsadiff_C8_amended_witness :
    padCount { name := "A", value := .finite (-75), min := none, max := none, step := none } =
      36 - (({ name := "A", value := .finite (-75), min := none, max := none,
               step := none } : UciOption).name.length +
          (if 1 ≤ |(-75:ℚ)| then
            digitCountIntMag ({ name := "A", value := .finite (-75), min := none, max := none,
                                step := none } : UciOption).value - 1
          else 0) +
          (if (-75:ℚ) < 0 then 1 else 0)) :=
  spsadiff_C8_amended _ (-75) rfl

/-- C9: for finite values the after value is rendered wrapped in the color
chosen by the three-way comparison (green above, red below, grey on
equality), with the reset code immediately after the number. -/
theorem spsadiff_C9 :
    ∀ (b a : UciOption) (qb qa : ℚ), b.value = .finite qb → a.value = .finite qa →
      renderLine b a =
        b.name ++ " " ++ dots (padCount b) ++ " " ++ display b.value ++ " -> " ++
          (if qb < qa then CONTROL_GREEN else if qa < qb then CONTROL_RED else CONTROL_GREY) ++
          display a.value ++ CONTROL_RESET ++ " " ++ dots (tailCount a) := by
  intro b a qb qa hb ha
  have hc : controlFor a.value b.value =
      (if qb < qa then CONTROL_GREEN else if qa < qb then CONTROL_RED else CONTROL_GREY) := by
    rw [ha, hb]
    simp only [controlFor, EFloat.totalCmp, EFloat.qcmp]
    split_ifs with h1 h2 h3 <;> first
      | rfl
      | (exfalso; linarith)
  simp only [renderLine, hc]

/-- Witness for C9 at a six-to-five change. -/
theorem spsadiff_C9_witness :
    renderLine
        { name := "A", value := .finite 6, min := none, max := none, step := none }
        { name := "A", value := .finite 5, min := none, max := none, step := none } =
      ({ name := "A", value := .finite 6, min := none, max := none,
         step := none } : UciOption).name ++ " " ++
        dots (padCount { name := "A", value := .finite 6, min := none, max := none,
                         step := none }) ++ " " ++
        display ({ name := "A", value := .finite 6, min := none, max := none,
                   step := none } : UciOption).value ++ " -> " ++
        (if (6:ℚ) < 5 then CONTROL_GREEN else if (5:ℚ) < 6 then CONTROL_RED
          else CONTROL_GREY) ++
        display ({ name := "A", value := .finite 5, min := none, max := none,
                   step := none } : UciOption).value ++ CONTROL_RESET ++ " " ++
        dots (tailCount { name := "A", value := .finite 5, min := none, max := none,
                          step := none }) :=
  spsadiff_C9 _ _ 6 5 rfl rfl

end Spsadiff
